import Mathlib

/-!
Verification of the retry/backoff helpers and analysis handler of the
application (src/src/App.jsx), together with a spec-modelled album-tree
engine (Tree Mutator, Import Reducer, Path Resolver, Sync Controller) whose
implementation is not present under src/.

All machine integers of the source are modelled as Nat (no overflow is
relevant: statuses, counters and millisecond delays stay tiny).
-/

/-- JavaScript's `!text.trim()` emptiness test: true iff every character
of the string is whitespace (in particular for the empty string). -/
def blankText (s : String) : Bool := s.data.all Char.isWhitespace

namespace App

/-- Outcome of one `fetch(url, options)` call: either the promise resolves
with a response carrying an HTTP status, or it rejects (network error). -/
inductive FetchOutcome where
  | ok (status : Nat)
  | netErr
deriving Repr, DecidableEq

/-- How a backoff helper finishes: returning a value, throwing, or falling
off the end of the function body (JavaScript returns `undefined` then). -/
inductive RunResult where
  | success (status : Nat)
  | thrown (msg : String)
  | retNormal
deriving Repr, DecidableEq

/-- Message thrown by `exponentialBackoffFetch` after the loop. -/
def exhaustedMsg : String := "API call failed after multiple retries."

/-- Message rethrown when the last fetch attempt rejects (the original
network error, abstracted by its role). -/
def netErrMsg : String := "network error"

/-- Message thrown by `withExponentialBackoff` at the last attempt. -/
def failedConnectMsg : String := "Failed to connect to the AI service after multiple retries."

/--
Loop body of `exponentialBackoffFetch` (src/src/App.jsx:61-78).
`attempt` is the current loop index, `remaining` the number of loop
iterations still allowed (`maxRetries - attempt`). `outcomes k` is what the
fetch at loop index `k` does. Returns the run result, the number of fetch
calls made, and the list of delays (ms) passed to `setTimeout`, in order.
-/
def ebfAux (outcomes : Nat → FetchOutcome) : Nat → Nat → RunResult × Nat × List Nat
  | _, 0 => (.thrown exhaustedMsg, 0, [])
  | attempt, 1 =>
    match outcomes attempt with
    | .ok s =>
      if s ≠ 429 then (.success s, 1, [])
      else (.thrown exhaustedMsg, 1, [1000 * 2 ^ attempt])
    | .netErr => (.thrown netErrMsg, 1, [])
  | attempt, r + 2 =>
    match outcomes attempt with
    | .ok s =>
      if s ≠ 429 then (.success s, 1, [])
      else
        let rest := ebfAux outcomes (attempt + 1) (r + 1)
        (rest.1, rest.2.1 + 1, 1000 * 2 ^ attempt :: rest.2.2)
    | .netErr =>
      let rest := ebfAux outcomes (attempt + 1) (r + 1)
      (rest.1, rest.2.1 + 1, 1000 * 2 ^ attempt :: rest.2.2)

/-- `exponentialBackoffFetch(url, options, maxRetries)`: run the retry loop
from attempt 0. -/
def exponentialBackoffFetch (outcomes : Nat → FetchOutcome) (maxRetries : Nat := 5) :
    RunResult × Nat × List Nat :=
  ebfAux outcomes 0 maxRetries

/-- `response.ok` of the Fetch API: status in 200..299. -/
def responseOk (s : Nat) : Bool := 200 ≤ s && s ≤ 299

/--
Loop body of `withExponentialBackoff` (src/src/App.jsx:428-453).
Every throw raised inside the `try` (429 rate-limit marker, 401/403
authorization message, generic API error, network rejection) lands in the
`catch`, which retries unless this was the last attempt, with delay
`2^attempt * 1000 + jitter attempt` (`jitter k` models
`Math.random() * 1000`, a value in [0, 1000)). Falling off the loop
(only possible when `maxRetries = 0`) returns `undefined`.
-/
def webAux (outcomes : Nat → FetchOutcome) (jitter : Nat → Nat) :
    Nat → Nat → RunResult × Nat × List Nat
  | _, 0 => (.retNormal, 0, [])
  | attempt, 1 =>
    match outcomes attempt with
    | .ok s =>
      if responseOk s then (.success s, 1, [])
      else (.thrown failedConnectMsg, 1, [])
    | .netErr => (.thrown failedConnectMsg, 1, [])
  | attempt, r + 2 =>
    match outcomes attempt with
    | .ok s =>
      if responseOk s then (.success s, 1, [])
      else
        let rest := webAux outcomes jitter (attempt + 1) (r + 1)
        (rest.1, rest.2.1 + 1, (2 ^ attempt * 1000 + jitter attempt) :: rest.2.2)
    | .netErr =>
      let rest := webAux outcomes jitter (attempt + 1) (r + 1)
      (rest.1, rest.2.1 + 1, (2 ^ attempt * 1000 + jitter attempt) :: rest.2.2)

/-- `withExponentialBackoff(apiCall, maxRetries)` from attempt 0. -/
def withExponentialBackoff (outcomes : Nat → FetchOutcome) (jitter : Nat → Nat)
    (maxRetries : Nat := 5) : RunResult × Nat × List Nat :=
  webAux outcomes jitter 0 maxRetries

/-- One suggested improvement returned by the analysis API. -/
structure Sug where
  errorId : Nat
  original : String
  correction : String
deriving Repr, DecidableEq

/-- One generated headline/subheadline pair. -/
structure HeadlinePair where
  headline : String
  subheadline : String
deriving Repr, DecidableEq

/-- The parsed analysis content (the RESPONSE_SCHEMA shape). -/
structure AContent where
  processedTextHtml : String
  suggestedImprovements : List Sug
  headlines : List HeadlinePair
deriving Repr, DecidableEq

/-- The component state touched by `handleTextAnalysis`. -/
structure AppState where
  inputText : String
  analyzedContent : Option AContent
  selectedError : Option Sug
  isLoading : Bool
deriving Repr, DecidableEq

/-- Net effect of the `exponentialBackoffFetch` call plus response parsing,
as seen by `handleTextAnalysis`: a parsed content object, a response whose
body had no candidate text (throws inside the `try`), or a throw out of the
fetch helper itself. -/
inductive NetResult where
  | parsed (content : AContent)
  | badResponse
  | fetchThrew
deriving Repr, DecidableEq

def pasteAlertMsg : String := "Please paste the article text or upload an image first."

def missingKeyAlertMsg : String := "The Gemini API Key is missing."

def failAlertMsg : String := "Failed to analyze text. Please check the console for details."

/--
`handleTextAnalysis(refreshHeadlines)` (src/src/App.jsx:117-197), as a
function of the relevant component state. Returns the final state, the
number of network request calls issued (calls to
`exponentialBackoffFetch`), and the list of `alert` messages shown.
JavaScript's `!inputText.trim()` is modelled with `String.trim`.
-/
def handleTextAnalysis (refreshHeadlines : Bool) (apiKey : String) (net : NetResult)
    (st : AppState) : AppState × Nat × List String :=
  if blankText st.inputText then (st, 0, [pasteAlertMsg])
  else if apiKey = "" then ({ st with isLoading := false }, 0, [missingKeyAlertMsg])
  else
    let step :=
      match refreshHeadlines, st.analyzedContent with
      | true, some c =>
        let t := { c with headlines := ([] : List HeadlinePair) }
        ({ st with isLoading := true, analyzedContent := some t }, some t)
      | _, _ =>
        ({ st with isLoading := true, analyzedContent := none, selectedError := none },
          (none : Option AContent))
    let st1 := step.1
    match net with
    | .parsed p =>
      match refreshHeadlines, step.2 with
      | true, some t =>
        let newContent : AContent := { t with headlines := p.headlines }
        ({ st1 with analyzedContent := some newContent, isLoading := false }, 1, [])
      | _, _ => ({ st1 with analyzedContent := some p, isLoading := false }, 1, [])
    | .badResponse => ({ st1 with isLoading := false }, 1, [failAlertMsg])
    | .fetchThrew => ({ st1 with isLoading := false }, 1, [failAlertMsg])

end App

namespace Media

/-!
Modelled from the spec: the album-tree engine (spec.md sections 3, 4.1-4.5)
is not present under src/ — only its natural-language design is. The
definitions below follow the spec's words. Ids are Nat: the
identity-generation collaborator is modelled as a counter supplying fresh
values, which the spec requires only to be globally unique (section 6).
-/

/-- Modelled from the spec: an Image leaf (section 3); `url`, `sizeLabel`
and `timestamp` are opaque to every algorithm and are omitted. -/
structure Image where
  id : Nat
  name : String
deriving Repr, DecidableEq

/-- Modelled from the spec: an Album node (section 3). -/
inductive Album : Type where
  | mk (id : Nat) (name : String) (images : List Image) (subAlbums : List Album)
deriving Repr

def Album.id : Album → Nat
  | .mk i _ _ _ => i

def Album.name : Album → String
  | .mk _ n _ _ => n

def Album.images : Album → List Image
  | .mk _ _ im _ => im

def Album.subAlbums : Album → List Album
  | .mk _ _ _ s => s

/-- The ids of a list of images. -/
def imgIds (l : List Image) : List Nat := l.map Image.id

mutual

/-- Every id (the album's own, its images', and recursively its
sub-albums') in one album. -/
def Album.allIds : Album → List Nat
  | .mk i _ im s => i :: (imgIds im ++ forestIds s)

/-- Every id in a forest. -/
def forestIds : List Album → List Nat
  | [] => []
  | a :: rest => a.allIds ++ forestIds rest

end

mutual

/-- The album ids (not image ids) occurring anywhere in one album. -/
def Album.deepAlbumIds : Album → List Nat
  | .mk i _ _ s => i :: forestAlbumIds s

/-- The album ids occurring anywhere in a forest. -/
def forestAlbumIds : List Album → List Nat
  | [] => []
  | a :: rest => a.deepAlbumIds ++ forestAlbumIds rest

end

mutual

/-- The image ids (not album ids) occurring anywhere in one album. -/
def Album.deepImageIds : Album → List Nat
  | .mk _ _ im s => imgIds im ++ forestImageIds s

/-- The image ids occurring anywhere in a forest. -/
def forestImageIds : List Album → List Nat
  | [] => []
  | a :: rest => a.deepImageIds ++ forestImageIds rest

end

/-- All albums of a forest, at every depth (each album together with its
whole subtree). -/
def subtreesF : List Album → List Album
  | [] => []
  | .mk i n im s :: rest => .mk i n im s :: (subtreesF s ++ subtreesF rest)

/-- Modelled from the spec: `deleteAlbum(forest, albumId)` (section 4.2)
filters the entire forest, dropping any Album whose id matches at any
depth (without descending into a dropped subtree) and recursing into the
surviving albums' subAlbums. -/
def deleteAlbumF (aid : Nat) : List Album → List Album
  | [] => []
  | .mk i n im s :: rest =>
    if i = aid then deleteAlbumF aid rest
    else .mk i n im (deleteAlbumF aid s) :: deleteAlbumF aid rest

/-- Modelled from the spec: `deleteImage(forest, imageId)` (section 4.2)
rewrites every album's `images`, removing any image whose id matches. -/
def deleteImageF (iid : Nat) : List Album → List Album
  | [] => []
  | .mk i n im s :: rest =>
    .mk i n (im.filter (fun img => img.id ≠ iid)) (deleteImageF iid s) :: deleteImageF iid rest

/-- Modelled from the spec: a file-system entry descriptor (section 4.3).
`isImage` records whether a file's content type is an image type. -/
inductive Entry : Type where
  | file (name : String) (isImage : Bool)
  | dir (name : String) (children : List Entry)
deriving Repr

/-- Split a sub-album list around the first album whose name equals `n`
(case-sensitive exact match): returns the albums before it, the match, and
the albums after it. -/
def splitNamed (n : String) : List Album → Option (List Album × Album × List Album)
  | [] => none
  | a :: rest =>
    if a.name = n then some ([], a, rest)
    else
      match splitNamed n rest with
      | some (xs, b, ys) => some (a :: xs, b, ys)
      | none => none

/-- Modelled from the spec: the Import Reducer (section 4.3). Processes the
entries in host order against a container (an `images` list and a
`subAlbums` list), threading the fresh-id counter. An image file appends a
new Image with a fresh id; a non-image file is ignored; a directory merges
into the first existing same-named sub-album, or appends a new empty album
with a fresh id and recurses into it. -/
def importList : List Entry → List Image → List Album → Nat → List Image × List Album × Nat
  | [], im, s, c => (im, s, c)
  | .file n isImg :: es, im, s, c =>
    if isImg then importList es (im ++ [Image.mk c n]) s (c + 1)
    else importList es im s c
  | .dir n ch :: es, im, s, c =>
    match splitNamed n s with
    | some (xs, a, ys) =>
      let r := importList ch a.images a.subAlbums c
      importList es im (xs ++ Album.mk a.id a.name r.1 r.2.1 :: ys) r.2.2
    | none =>
      let r := importList ch [] [] (c + 1)
      importList es im (s ++ [Album.mk c n r.1 r.2.1]) r.2.2

/-- Modelled from the spec: the recursive descent shared by the Tree
Mutator's targeted operations (section 4.2). Follows `path` id by id; at
the album matching the last id, applies the container transformer `g` to
its `(images, subAlbums)` pair with the current counter; every ancestor on
the path is reconstructed. An unresolvable path leaves the forest
unchanged (ValidationNoop, section 7). -/
def modifyAlbumIn (g : List Image → List Album → Nat → List Image × List Album × Nat) :
    List Nat → List Album → Nat → List Album × Nat
  | [], f, c => (f, c)
  | _ :: _, [], c => ([], c)
  | [pid], .mk i n im s :: sib, c =>
    if i = pid then
      let r := g im s c
      (.mk i n r.1 r.2.1 :: sib, r.2.2)
    else
      let r := modifyAlbumIn g [pid] sib c
      (.mk i n im s :: r.1, r.2)
  | pid :: q :: rest, .mk i n im s :: sib, c =>
    if i = pid then
      let r := modifyAlbumIn g (q :: rest) s c
      (.mk i n im r.1 :: sib, r.2)
    else
      let r := modifyAlbumIn g (pid :: q :: rest) sib c
      (.mk i n im s :: r.1, r.2)
  termination_by p f _ => (p.length, sizeOf f)

/-- Modelled from the spec: `createAlbum(forest, path, name)` (section
4.2): appends a new empty album with a fresh id at the root (empty path)
or to the path target's `subAlbums`; a whitespace-only name is a silent
no-op. -/
def createAlbum (forest : List Album) (path : List Nat) (nm : String) (c : Nat) :
    List Album × Nat :=
  if blankText nm then (forest, c)
  else
    match path with
    | [] => (forest ++ [Album.mk c nm [] []], c + 1)
    | _ :: _ =>
      modifyAlbumIn (fun im s cc => (im, s ++ [Album.mk cc nm [] []], cc + 1)) path forest c

/-- Modelled from the spec: an import targeted at the container addressed
by `path` (the forest itself for the empty path — the root container has
no `images` list, so root-level image files go nowhere). -/
def importInto (forest : List Album) (path : List Nat) (es : List Entry) (c : Nat) :
    List Album × Nat :=
  match path with
  | [] =>
    let r := importList es [] forest c
    (r.2.1, r.2.2)
  | _ :: _ => modifyAlbumIn (importList es) path forest c

/-- A create or import operation, as in the uniqueness property of spec.md
section 8. -/
inductive Op where
  | create (path : List Nat) (nm : String)
  | doImport (path : List Nat) (es : List Entry)

/-- Apply one operation to the forest and the fresh-id counter. -/
def applyOp (st : List Album × Nat) : Op → List Album × Nat
  | .create p nm => createAlbum st.1 p nm st.2
  | .doImport p es => importInto st.1 p es st.2

/-- Apply a sequence of operations. -/
def applyOps (st : List Album × Nat) : List Op → List Album × Nat
  | [] => st
  | op :: ops => applyOps (applyOp st op) ops

/-- Modelled from the spec: strict path resolution (section 4.1): the
ordered album list visible at the end of `path`, or failure if some id is
missing at its level. -/
def childrenAt : List Album → List Nat → Option (List Album)
  | f, [] => some f
  | f, pid :: rest =>
    match f.find? (fun a => a.id = pid) with
    | some a => childrenAt a.subAlbums rest
    | none => none

/-- Modelled from the spec: resolution with the staleness policy of
section 4.1 — truncate to the last resolvable path position instead of
failing; total, so it never throws. -/
def resolveTrunc : List Album → List Nat → List Album
  | f, [] => f
  | f, pid :: rest =>
    match f.find? (fun a => a.id = pid) with
    | some a => resolveTrunc a.subAlbums rest
    | none => f

/-- How many albums of a list carry the given name. -/
def countNamed (n : String) (l : List Album) : Nat :=
  (l.filter (fun a => a.name = n)).length

/-- Modelled from the spec: the Sync Controller state touched by a local
mutation and its background persist (section 4.4): the authoritative
forest, the `syncing` flag, and the user-visible error surface. -/
structure SyncState where
  forest : List Album
  syncing : Bool
  userError : Option String
deriving Repr

/-- Modelled from the spec: apply a local mutation optimistically, then run
the background persist: set `syncing = true`, write the whole forest to the
remote store, and set `syncing = false` on completion regardless of the
write outcome `ok`; a failure is logged (second component) and absorbed,
never surfaced, and does not roll back the local change. Returns the final
state, the write payloads issued, and the log. -/
def mutateAndPersist (st : SyncState) (m : List Album → List Album) (ok : Bool) :
    SyncState × List (List Album) × List String :=
  let afterLocal := { st with forest := m st.forest }
  let duringSync := { afterLocal with syncing := true }
  let logs := if ok then ([] : List String) else ["background persist failed (absorbed)"]
  ({ duringSync with syncing := false }, [afterLocal.forest], logs)

/-- The ids of one container, as handed to the Import Reducer: its images'
ids followed by every id inside its sub-albums. -/
def cIds (im : List Image) (s : List Album) : List Nat := imgIds im ++ forestIds s

/-- A small concrete forest used to witness the tree theorems: one root
album "A" (id 1, image 10) with child album "B" (id 2, image 11). -/
def demoForest : List Album :=
  [Album.mk 1 "A" [⟨10, "i.jpg"⟩] [Album.mk 2 "B" [⟨11, "j.jpg"⟩] []]]

end Media


namespace App

/-! ## Facts about the retry helpers -/

theorem ebfAux_attempts_le (outcomes : Nat → FetchOutcome) :
    ∀ fuel attempt, (ebfAux outcomes attempt fuel).2.1 ≤ fuel := by
  intro fuel
  induction fuel with
  | zero => intro attempt; simp [ebfAux]
  | succ f ih =>
    intro attempt
    cases f with
    | zero =>
      rw [ebfAux]
      cases ho : outcomes attempt with
      | ok s => by_cases hs : s ≠ 429 <;> simp [hs]
      | netErr => simp
    | succ r =>
      rw [ebfAux]
      cases ho : outcomes attempt with
      | ok s =>
        by_cases hs : s ≠ 429
        · simp [hs]
        · simp only [hs, if_false]
          exact Nat.succ_le_succ (ih (attempt + 1))
      | netErr =>
        exact Nat.succ_le_succ (ih (attempt + 1))

theorem webAux_attempts_le (outcomes : Nat → FetchOutcome) (jitter : Nat → Nat) :
    ∀ fuel attempt, (webAux outcomes jitter attempt fuel).2.1 ≤ fuel := by
  intro fuel
  induction fuel with
  | zero => intro attempt; simp [webAux]
  | succ f ih =>
    intro attempt
    cases f with
    | zero =>
      rw [webAux]
      cases ho : outcomes attempt with
      | ok s => by_cases hs : responseOk s <;> simp [hs]
      | netErr => simp
    | succ r =>
      rw [webAux]
      cases ho : outcomes attempt with
      | ok s =>
        by_cases hs : responseOk s
        · simp [hs]
        · simp only [hs, if_false]
          exact Nat.succ_le_succ (ih (attempt + 1))
      | netErr =>
        exact Nat.succ_le_succ (ih (attempt + 1))

theorem ebfAux_delay_eq (outcomes : Nat → FetchOutcome) :
    ∀ fuel attempt k d, ((ebfAux outcomes attempt fuel).2.2)[k]? = some d →
      d = 1000 * 2 ^ (attempt + k) := by
  intro fuel
  induction fuel with
  | zero => intro attempt k d h; simp [ebfAux] at h
  | succ f ih =>
    intro attempt k d h
    cases f with
    | zero =>
      rw [ebfAux] at h
      cases ho : outcomes attempt with
      | ok s =>
        rw [ho] at h
        by_cases hs : s ≠ 429
        · simp [hs] at h
        · simp only [hs, if_false] at h
          cases k with
          | zero => simp at h; simp [h]
          | succ k => simp at h
      | netErr => rw [ho] at h; simp at h
    | succ r =>
      rw [ebfAux] at h
      cases ho : outcomes attempt with
      | ok s =>
        rw [ho] at h
        by_cases hs : s ≠ 429
        · simp [hs] at h
        · simp only [hs, if_false] at h
          cases k with
          | zero => simp at h; simp [h]
          | succ k =>
            simp only [List.getElem?_cons_succ] at h
            have hrec := ih (attempt + 1) k d h
            have harith : attempt + 1 + k = attempt + (k + 1) := by omega
            rw [harith] at hrec
            exact hrec
      | netErr =>
        rw [ho] at h
        simp only [] at h
        cases k with
        | zero => simp at h; simp [h]
        | succ k =>
          simp only [List.getElem?_cons_succ] at h
          have hrec := ih (attempt + 1) k d h
          have harith : attempt + 1 + k = attempt + (k + 1) := by omega
          rw [harith] at hrec
          exact hrec

theorem webAux_delay_eq (outcomes : Nat → FetchOutcome) (jitter : Nat → Nat) :
    ∀ fuel attempt k d, ((webAux outcomes jitter attempt fuel).2.2)[k]? = some d →
      d = 2 ^ (attempt + k) * 1000 + jitter (attempt + k) := by
  intro fuel
  induction fuel with
  | zero => intro attempt k d h; simp [webAux] at h
  | succ f ih =>
    intro attempt k d h
    cases f with
    | zero =>
      rw [webAux] at h
      cases ho : outcomes attempt with
      | ok s =>
        rw [ho] at h
        by_cases hs : responseOk s <;> simp [hs] at h
      | netErr => rw [ho] at h; simp at h
    | succ r =>
      rw [webAux] at h
      cases ho : outcomes attempt with
      | ok s =>
        rw [ho] at h
        by_cases hs : responseOk s
        · simp [hs] at h
        · simp only [hs, if_false] at h
          cases k with
          | zero => simp at h; simp [h]
          | succ k =>
            simp at h
            have hrec := ih (attempt + 1) k d h
            have harith : attempt + 1 + k = attempt + (k + 1) := by omega
            rw [harith] at hrec
            exact hrec
      | netErr =>
        rw [ho] at h
        cases k with
        | zero => simp at h; simp [h]
        | succ k =>
          simp at h
          have hrec := ih (attempt + 1) k d h
          have harith : attempt + 1 + k = attempt + (k + 1) := by omega
          rw [harith] at hrec
          exact hrec

theorem ebfAux_result_shape (outcomes : Nat → FetchOutcome) :
    ∀ fuel attempt, (∃ s, (ebfAux outcomes attempt fuel).1 = .success s) ∨
      (∃ m, (ebfAux outcomes attempt fuel).1 = .thrown m) := by
  intro fuel
  induction fuel with
  | zero => intro attempt; right; exact ⟨exhaustedMsg, rfl⟩
  | succ f ih =>
    intro attempt
    cases f with
    | zero =>
      rw [ebfAux]
      cases ho : outcomes attempt with
      | ok s =>
        by_cases hs : s ≠ 429
        · left; exact ⟨s, by simp [hs]⟩
        · right; exact ⟨exhaustedMsg, by simp [hs]⟩
      | netErr => right; exact ⟨netErrMsg, by simp⟩
    | succ r =>
      rw [ebfAux]
      cases ho : outcomes attempt with
      | ok s =>
        by_cases hs : s ≠ 429
        · left; exact ⟨s, by simp [hs]⟩
        · simp only [hs, if_false]
          exact ih (attempt + 1)
      | netErr => exact ih (attempt + 1)

theorem webAux_result_shape (outcomes : Nat → FetchOutcome) (jitter : Nat → Nat) :
    ∀ fuel attempt, 1 ≤ fuel →
      (∃ s, (webAux outcomes jitter attempt fuel).1 = .success s) ∨
      (webAux outcomes jitter attempt fuel).1 = .thrown failedConnectMsg := by
  intro fuel
  induction fuel with
  | zero => intro attempt h; omega
  | succ f ih =>
    intro attempt _
    cases f with
    | zero =>
      rw [webAux]
      cases ho : outcomes attempt with
      | ok s =>
        by_cases hs : responseOk s
        · left; exact ⟨s, by simp [hs]⟩
        · right; simp [hs]
      | netErr => right; simp
    | succ r =>
      rw [webAux]
      cases ho : outcomes attempt with
      | ok s =>
        by_cases hs : responseOk s
        · left; exact ⟨s, by simp [hs]⟩
        · simp only [hs, if_false]
          exact ih (attempt + 1) (by omega)
      | netErr => exact ih (attempt + 1) (by omega)

theorem ebfAux_first_success (outcomes : Nat → FetchOutcome) :
    ∀ k fuel attempt s, k < fuel → outcomes (attempt + k) = .ok s → s ≠ 429 →
      (∀ j, j < k → outcomes (attempt + j) = .ok 429 ∨ outcomes (attempt + j) = .netErr) →
      (ebfAux outcomes attempt fuel).1 = .success s ∧
      (ebfAux outcomes attempt fuel).2.1 = k + 1 := by
  intro k
  induction k with
  | zero =>
    intro fuel attempt s hk ho hs _
    rw [Nat.add_zero] at ho
    match fuel, hk with
    | 1, _ =>
      rw [ebfAux, ho]
      simp [hs]
    | r + 2, _ =>
      rw [ebfAux, ho]
      simp [hs]
  | succ k ih =>
    intro fuel attempt s hk ho hs hbefore
    match fuel, hk with
    | r + 2, hk =>
      have h0 := hbefore 0 (by omega)
      rw [Nat.add_zero] at h0
      have hshift : ∀ j, j < k →
          outcomes (attempt + 1 + j) = .ok 429 ∨ outcomes (attempt + 1 + j) = .netErr := by
        intro j hj
        have := hbefore (j + 1) (by omega)
        have harith : attempt + (j + 1) = attempt + 1 + j := by omega
        rw [harith] at this
        exact this
      have ho1 : outcomes (attempt + 1 + k) = .ok s := by
        have harith : attempt + (k + 1) = attempt + 1 + k := by omega
        rw [harith] at ho
        exact ho
      have hrec := ih (r + 1) (attempt + 1) s (by omega) ho1 hs hshift
      rcases h0 with h0 | h0 <;>
        · rw [ebfAux, h0]
          refine ⟨?_, ?_⟩ <;> simp [hrec.1, hrec.2]

/-! ## Claim theorems about the retry helpers and the analysis handler -/

/-- C1 (code bug evidence): when every fetch resolves with HTTP status 401
(a non-retryable auth error), `withExponentialBackoff` at its default of 5
attempts does NOT abort after the first observation: it makes all 5 fetch
attempts and ends by throwing the generic retries-exhausted error, while
`exponentialBackoffFetch` returns the 401 response on the first attempt.
The claim that a 401/403 aborts without a further attempt fails for
`withExponentialBackoff`: its 401/403 throw is caught by its own `catch`
block and retried. -/
theorem web_retries_after_observed_401 :
    (withExponentialBackoff (fun _ => FetchOutcome.ok 401) (fun _ => 0) 5).2.1 = 5 ∧
    (withExponentialBackoff (fun _ => FetchOutcome.ok 401) (fun _ => 0) 5).1 =
      .thrown failedConnectMsg ∧
    (exponentialBackoffFetch (fun _ => FetchOutcome.ok 401) 5).1 = .success 401 ∧
    (exponentialBackoffFetch (fun _ => FetchOutcome.ok 401) 5).2.1 = 1 := by
  exact ⟨rfl, rfl, rfl, rfl⟩

/-- C2: both retry helpers make at most `maxRetries` fetch attempts (at
most 5 at the default, so no sixth attempt ever occurs), and the delay
scheduled before 0-based retry attempt `k` is `1000 * 2 ^ k` ms for
`exponentialBackoffFetch` and `2 ^ k * 1000` ms plus jitter for
`withExponentialBackoff`. -/
theorem backoff_attempts_bounded_delays_exponential :
    ∀ (outcomes : Nat → FetchOutcome) (jitter : Nat → Nat) (maxRetries : Nat),
      (exponentialBackoffFetch outcomes maxRetries).2.1 ≤ maxRetries ∧
      (withExponentialBackoff outcomes jitter maxRetries).2.1 ≤ maxRetries ∧
      (exponentialBackoffFetch outcomes).2.1 ≤ 5 ∧
      (withExponentialBackoff outcomes jitter).2.1 ≤ 5 ∧
      (∀ k d, ((exponentialBackoffFetch outcomes maxRetries).2.2)[k]? = some d →
        d = 1000 * 2 ^ k) ∧
      (∀ k d, ((withExponentialBackoff outcomes jitter maxRetries).2.2)[k]? = some d →
        d = 2 ^ k * 1000 + jitter k) := by
  intro outcomes jitter maxRetries
  refine ⟨ebfAux_attempts_le outcomes maxRetries 0,
    webAux_attempts_le outcomes jitter maxRetries 0,
    ebfAux_attempts_le outcomes 5 0,
    webAux_attempts_le outcomes jitter 5 0, ?_, ?_⟩
  · intro k d h
    have := ebfAux_delay_eq outcomes maxRetries 0 k d h
    simpa using this
  · intro k d h
    have := webAux_delay_eq outcomes jitter maxRetries 0 k d h
    simpa using this

/-- Witness for C2 at a concrete input: five rate-limited responses give
delays starting with 1000 ms for `exponentialBackoffFetch` and
1000 + 7 ms for `withExponentialBackoff` with constant jitter 7. -/
theorem backoff_attempts_bounded_delays_exponential_witness :
    (App.exponentialBackoffFetch (fun _ => FetchOutcome.ok 429)).2.1 ≤ 5 ∧
    (1000 : Nat) = 1000 * 2 ^ 0 ∧ (1007 : Nat) = 2 ^ 0 * 1000 + 7 := by
  have h := backoff_attempts_bounded_delays_exponential
    (fun _ => FetchOutcome.ok 429) (fun _ => 7) 5
  exact ⟨h.2.2.1, h.2.2.2.2.1 0 1000 rfl, h.2.2.2.2.2 0 1007 rfl⟩

/-- C3: if a retry helper never obtains a successful result, its run ends
by throwing: `exponentialBackoffFetch` throws for every `maxRetries`, and
`withExponentialBackoff` throws its retries-exhausted error whenever at
least one attempt is allowed (every call in the source uses the default
of 5); neither returns normally then. -/
theorem backoff_exhaustion_raises_failure :
    ∀ (outcomes : Nat → FetchOutcome) (jitter : Nat → Nat) (maxRetries : Nat),
      ((∀ s, (exponentialBackoffFetch outcomes maxRetries).1 ≠ .success s) →
        ∃ m, (exponentialBackoffFetch outcomes maxRetries).1 = .thrown m) ∧
      ((exponentialBackoffFetch outcomes maxRetries).1 ≠ .retNormal) ∧
      (1 ≤ maxRetries →
        (∀ s, (withExponentialBackoff outcomes jitter maxRetries).1 ≠ .success s) →
        (withExponentialBackoff outcomes jitter maxRetries).1 = .thrown failedConnectMsg) ∧
      (1 ≤ maxRetries → (withExponentialBackoff outcomes jitter maxRetries).1 ≠ .retNormal) := by
  intro outcomes jitter maxRetries
  refine ⟨?_, ?_, ?_, ?_⟩
  · intro hns
    rcases ebfAux_result_shape outcomes maxRetries 0 with ⟨s, hsu⟩ | hm
    · exact absurd hsu (hns s)
    · exact hm
  · rcases ebfAux_result_shape outcomes maxRetries 0 with ⟨s, hsu⟩ | ⟨m, hm⟩
    · exact fun hc => RunResult.noConfusion (hsu.symm.trans hc)
    · exact fun hc => RunResult.noConfusion (hm.symm.trans hc)
  · intro hfuel hns
    rcases webAux_result_shape outcomes jitter maxRetries 0 hfuel with ⟨s, hsu⟩ | hm
    · exact absurd hsu (hns s)
    · exact hm
  · intro hfuel
    rcases webAux_result_shape outcomes jitter maxRetries 0 hfuel with ⟨s, hsu⟩ | hm
    · exact fun hc => RunResult.noConfusion (hsu.symm.trans hc)
    · exact fun hc => RunResult.noConfusion (hm.symm.trans hc)

/-- Witness for C3 at a concrete input: with every fetch rejecting, both
helpers (default 5 attempts) end in a throw. -/
theorem backoff_exhaustion_raises_failure_witness :
    (∃ m, (App.exponentialBackoffFetch (fun _ => FetchOutcome.netErr) 5).1 = .thrown m) ∧
    (App.withExponentialBackoff (fun _ => FetchOutcome.netErr) (fun _ => 0) 5).1 =
      .thrown App.failedConnectMsg := by
  have h := backoff_exhaustion_raises_failure (fun _ => FetchOutcome.netErr) (fun _ => 0) 5
  exact ⟨h.1 (fun s hc => RunResult.noConfusion hc),
    h.2.2.1 (by omega) (fun s hc => RunResult.noConfusion hc)⟩

/-- C9: `exponentialBackoffFetch` returns the first response whose status
is not 429 (4xx and 5xx included) with no further attempt: if attempts
before `k` were rate-limited or rejected and attempt `k` yields status
`s ≠ 429`, the helper returns that response having made exactly `k + 1`
fetch calls. -/
theorem ebf_returns_first_non429_response :
    ∀ (outcomes : Nat → FetchOutcome) (maxRetries k s : Nat),
      k < maxRetries → outcomes k = .ok s → s ≠ 429 →
      (∀ j, j < k → outcomes j = .ok 429 ∨ outcomes j = .netErr) →
      (exponentialBackoffFetch outcomes maxRetries).1 = .success s ∧
      (exponentialBackoffFetch outcomes maxRetries).2.1 = k + 1 := by
  intro outcomes maxRetries k s hk ho hs hb
  exact ebfAux_first_success outcomes k maxRetries 0 s hk (by simpa using ho) hs
    (by simpa using hb)

/-- Witness for C9 at a concrete input: a first response with status 500
is returned on the first attempt. -/
theorem ebf_returns_first_non429_response_witness :
    (App.exponentialBackoffFetch (fun _ => FetchOutcome.ok 500) 5).1 = .success 500 ∧
    (App.exponentialBackoffFetch (fun _ => FetchOutcome.ok 500) 5).2.1 = 0 + 1 := by
  exact ebf_returns_first_non429_response (fun _ => FetchOutcome.ok 500) 5 0 500
    (by omega) rfl (by omega) (fun j hj => absurd hj (by omega))

/-- C10: on empty or whitespace-only input text, `handleTextAnalysis`
returns before issuing any network request and leaves `analyzedContent`,
`selectedError` and `isLoading` unchanged. -/
theorem handleTextAnalysis_blank_input_noop :
    ∀ (refresh : Bool) (apiKey : String) (net : NetResult) (st : AppState),
      blankText st.inputText = true →
      (handleTextAnalysis refresh apiKey net st).1.analyzedContent = st.analyzedContent ∧
      (handleTextAnalysis refresh apiKey net st).1.selectedError = st.selectedError ∧
      (handleTextAnalysis refresh apiKey net st).1.isLoading = st.isLoading ∧
      (handleTextAnalysis refresh apiKey net st).2.1 = 0 := by
  intro refresh apiKey net st h
  simp [handleTextAnalysis, h]

/-- Witness for C10 at a concrete input: whitespace-only text with loaded
content and a selection is left untouched, with no request issued. -/
theorem handleTextAnalysis_blank_input_noop_witness :
    (App.handleTextAnalysis false "key" .fetchThrew
      ⟨"  ", none, some ⟨3, "a", "b"⟩, true⟩).1.selectedError = some ⟨3, "a", "b"⟩ ∧
    (App.handleTextAnalysis false "key" .fetchThrew
      ⟨"  ", none, some ⟨3, "a", "b"⟩, true⟩).2.1 = 0 := by
  have h := handleTextAnalysis_blank_input_noop false "key" .fetchThrew
    ⟨"  ", none, some ⟨3, "a", "b"⟩, true⟩ rfl
  exact ⟨h.2.1, h.2.2.2⟩

end App

namespace Media

/-! ## Basic facts about the id collections -/

theorem forestIds_append : ∀ f g : List Album, forestIds (f ++ g) = forestIds f ++ forestIds g := by
  intro f g
  induction f with
  | nil => simp [forestIds]
  | cons a rest ih => simp [forestIds, ih]

theorem forestAlbumIds_append :
    ∀ f g : List Album, forestAlbumIds (f ++ g) = forestAlbumIds f ++ forestAlbumIds g := by
  intro f g
  induction f with
  | nil => simp [forestAlbumIds]
  | cons a rest ih => simp [forestAlbumIds, ih]

theorem forestImageIds_append :
    ∀ f g : List Album, forestImageIds (f ++ g) = forestImageIds f ++ forestImageIds g := by
  intro f g
  induction f with
  | nil => simp [forestImageIds]
  | cons a rest ih => simp [forestImageIds, ih]

theorem subtreesF_append :
    ∀ f g : List Album, subtreesF (f ++ g) = subtreesF f ++ subtreesF g := by
  intro f g
  induction f with
  | nil => simp [subtreesF]
  | cons a rest ih =>
    cases a with
    | mk i n im s => simp [subtreesF, ih]

theorem imgIds_filter_ne (iid : Nat) (im : List Image) :
    iid ∉ imgIds (im.filter (fun img => img.id ≠ iid)) := by
  simp [imgIds, List.mem_filter]

/-! ## deleteImage and the Sync Controller (C8) -/

theorem deleteImageF_removes (iid : Nat) :
    ∀ f : List Album, iid ∉ forestImageIds (deleteImageF iid f) := by
  intro f
  induction f using deleteImageF.induct iid with
  | case1 => simp [deleteImageF, forestImageIds]
  | case2 i n im s rest ihs ihr =>
    simp only [deleteImageF, forestImageIds, Album.deepImageIds, List.mem_append]
    intro hc
    rcases hc with (hc | hc) | hc
    · exact imgIds_filter_ne iid im hc
    · exact ihs hc
    · exact ihr hc

/-- C8: after a local `deleteImage` followed by a background persist, the
final Sync Controller state keeps the mutated forest (for any mutation),
with the deleted image absent, raises no user-visible error, issues the
write of the whole mutated forest, and has `syncing = false` — regardless
of whether the persist succeeded (`ok` arbitrary, in particular false). -/
theorem persist_failure_keeps_local_mutation :
    ∀ (st : SyncState) (m : List Album → List Album) (iid : Nat) (ok : Bool),
      ((mutateAndPersist st m ok).1.forest = m st.forest ∧
       (mutateAndPersist st m ok).1.userError = st.userError ∧
       (mutateAndPersist st m ok).1.syncing = false ∧
       (mutateAndPersist st m ok).2.1 = [m st.forest]) ∧
      iid ∉ forestImageIds (mutateAndPersist st (deleteImageF iid) ok).1.forest := by
  intro st m iid ok
  refine ⟨⟨rfl, rfl, rfl, rfl⟩, ?_⟩
  simpa [mutateAndPersist] using deleteImageF_removes iid st.forest

/-! ## Path resolution with truncation (C7) -/

theorem mem_deepAlbumIds_of_mem (a : Album) :
    ∀ g : List Album, a ∈ g → ∀ x, x ∈ a.deepAlbumIds → x ∈ forestAlbumIds g := by
  intro g
  induction g with
  | nil => intro h; cases h
  | cons b rest ih =>
    intro h x hx
    rcases List.mem_cons.mp h with h | h
    · subst h
      simp [forestAlbumIds]
      exact Or.inl hx
    · simp [forestAlbumIds]
      exact Or.inr (ih h x hx)

theorem find?_none_of_no_aid (aid : Nat) :
    ∀ g : List Album, aid ∉ forestAlbumIds g →
      g.find? (fun a => a.id = aid) = none := by
  intro g
  induction g with
  | nil => intro _; rfl
  | cons b rest ih =>
    intro h
    have hb : ¬(b.id = aid) := by
      intro hc
      apply h
      cases b with
      | mk i n im s =>
        simp [Album.id] at hc
        simp [forestAlbumIds, Album.deepAlbumIds, hc]
    have hrest : aid ∉ forestAlbumIds rest := by
      intro hc
      apply h
      simp [forestAlbumIds]
      exact Or.inr hc
    rw [List.find?_cons_of_neg, ih hrest]
    simp [hb]

theorem resolveTrunc_append_missing (aid : Nat) :
    ∀ (p : List Nat) (g : List Album), aid ∉ forestAlbumIds g →
      resolveTrunc g (p ++ [aid]) = resolveTrunc g p := by
  intro p
  induction p with
  | nil =>
    intro g h
    simp [resolveTrunc, find?_none_of_no_aid aid g h]
  | cons q qs ih =>
    intro g h
    simp only [List.cons_append, resolveTrunc]
    cases hf : g.find? (fun a => a.id = q) with
    | none => rfl
    | some a =>
      apply ih
      intro hc
      have ha : a ∈ g := List.mem_of_find?_eq_some hf
      apply h
      refine mem_deepAlbumIds_of_mem a g ha aid ?_
      cases a with
      | mk i n im s =>
        simp [Album.subAlbums] at hc
        simp [Album.deepAlbumIds, hc]

theorem deleteAlbumF_no_aid (aid : Nat) :
    ∀ f : List Album, aid ∉ forestAlbumIds (deleteAlbumF aid f) := by
  intro f
  induction f using deleteAlbumF.induct aid with
  | case1 => simp [deleteAlbumF, forestAlbumIds]
  | case2 n im s rest ih => simpa [deleteAlbumF] using ih
  | case3 i n im s rest hne ihs ihr =>
    simp [deleteAlbumF, hne, forestAlbumIds, Album.deepAlbumIds, ihs, ihr]
    omega

/-! ## deleteAlbum cascades (C5) -/

theorem deleteAlbumF_noop (aid : Nat) :
    ∀ f : List Album, aid ∉ forestAlbumIds f → deleteAlbumF aid f = f := by
  intro f
  induction f using deleteAlbumF.induct aid with
  | case1 => intro _; simp [deleteAlbumF]
  | case2 n im s rest ih =>
    intro h
    exact absurd (by simp [forestAlbumIds, Album.deepAlbumIds]) h
  | case3 i n im s rest hne ihs ihr =>
    intro h
    simp only [forestAlbumIds, Album.deepAlbumIds, List.cons_append, List.append_assoc,
      List.mem_cons, List.mem_append, not_or] at h
    rw [deleteAlbumF, if_neg hne, ihs h.2.1, ihr h.2.2]

theorem mem_forestIds_of_mem_delete (aid : Nat) :
    ∀ f : List Album, ∀ x, x ∈ forestIds (deleteAlbumF aid f) → x ∈ forestIds f := by
  intro f
  induction f using deleteAlbumF.induct aid with
  | case1 => intro x hx; simpa [deleteAlbumF] using hx
  | case2 n im s rest ih =>
    intro x hx
    rw [deleteAlbumF, if_pos rfl] at hx
    simp only [forestIds, Album.allIds, List.cons_append, List.append_assoc,
      List.mem_cons, List.mem_append]
    exact Or.inr (Or.inr (Or.inr (ih x hx)))
  | case3 i n im s rest hne ihs ihr =>
    intro x hx
    rw [deleteAlbumF, if_neg hne] at hx
    simp only [forestIds, Album.allIds, List.cons_append, List.append_assoc,
      List.mem_cons, List.mem_append] at hx ⊢
    rcases hx with hx | hx | hx | hx
    · exact Or.inl hx
    · exact Or.inr (Or.inl hx)
    · exact Or.inr (Or.inr (Or.inl (ihs x hx)))
    · exact Or.inr (Or.inr (Or.inr (ihr x hx)))

theorem mem_forestIds_of_mem_subtreesF :
    ∀ (f : List Album) (A : Album), A ∈ subtreesF f →
      ∀ x, x ∈ A.allIds → x ∈ forestIds f := by
  intro f
  induction f using subtreesF.induct with
  | case1 => intro A hA; simp [subtreesF] at hA
  | case2 i n im s rest ihs ihr =>
    intro A hA x hx
    simp only [subtreesF, List.mem_cons, List.mem_append] at hA
    simp only [forestIds, Album.allIds, List.cons_append, List.append_assoc,
      List.mem_cons, List.mem_append]
    rcases hA with hA | hA | hA
    · subst hA
      simp only [Album.allIds, List.mem_cons, List.mem_append] at hx
      tauto
    · exact Or.inr (Or.inr (Or.inl (ihs A hA x hx)))
    · exact Or.inr (Or.inr (Or.inr (ihr A hA x hx)))

theorem deleteAlbumF_cascade (aid : Nat) :
    ∀ f : List Album, (forestIds f).Nodup →
      ∀ A : Album, A ∈ subtreesF f → A.id = aid →
        ∀ x, x ∈ A.allIds → x ∉ forestIds (deleteAlbumF aid f) := by
  intro f
  induction f using deleteAlbumF.induct aid with
  | case1 => intro _ A hA; simp [subtreesF] at hA
  | case2 n im s rest ih =>
    intro hn A hA hid x hx hmem
    rw [deleteAlbumF, if_pos rfl] at hmem
    simp only [forestIds, Album.allIds, List.cons_append, List.append_assoc,
      List.nodup_cons, List.nodup_append, List.disjoint_left, List.mem_append,
      List.mem_cons, not_or] at hn
    obtain ⟨⟨hii, his, hir⟩, hnim, ⟨hns, hnr, hsr⟩, him⟩ := hn
    have hxrest : x ∈ forestIds rest := mem_forestIds_of_mem_delete aid rest x hmem
    simp only [subtreesF, List.mem_cons, List.mem_append] at hA
    rcases hA with hA | hA | hA
    · subst hA
      simp only [Album.allIds, List.mem_cons, List.mem_append] at hx
      rcases hx with hx | hx | hx
      · subst hx; exact hir hxrest
      · exact (him hx).2 hxrest
      · exact hsr hx hxrest
    · have hxs : x ∈ forestIds s := mem_forestIds_of_mem_subtreesF s A hA x hx
      exact hsr hxs hxrest
    · exact ih hnr A hA hid x hx hmem
  | case3 i n im s rest hne ihs ihr =>
    intro hn A hA hid x hx hmem
    rw [deleteAlbumF, if_neg hne] at hmem
    simp only [forestIds, Album.allIds, List.cons_append, List.append_assoc,
      List.nodup_cons, List.nodup_append, List.disjoint_left, List.mem_append,
      List.mem_cons, not_or] at hn
    obtain ⟨⟨hii, his, hir⟩, hnim, ⟨hns, hnr, hsr⟩, him⟩ := hn
    simp only [forestIds, Album.allIds, List.cons_append, List.append_assoc,
      List.mem_cons, List.mem_append] at hmem
    simp only [subtreesF, List.mem_cons, List.mem_append] at hA
    rcases hA with hA | hA | hA
    · subst hA
      simp only [Album.id] at hid
      exact hne hid
    · have hxs : x ∈ forestIds s := mem_forestIds_of_mem_subtreesF s A hA x hx
      rcases hmem with hm | hm | hm | hm
      · subst hm; exact his hxs
      · exact (him hm).1 hxs
      · exact ihs hns A hA hid x hx hm
      · exact hsr hxs (mem_forestIds_of_mem_delete aid rest x hm)
    · have hxr : x ∈ forestIds rest := mem_forestIds_of_mem_subtreesF rest A hA x hx
      rcases hmem with hm | hm | hm | hm
      · subst hm; exact hir hxr
      · exact (him hm).2 hxr
      · exact hsr (mem_forestIds_of_mem_delete aid s x hm) hxr
      · exact ihr hnr A hA hid x hx hm

/-- C5: `deleteAlbum` removes every album whose id matches together with
every descendant album and image beneath it (no id from such a subtree
survives, given a well-formed forest with unique ids), and deleting an id
that no album in the forest has returns a structurally equal forest. -/
theorem deleteAlbum_cascades_and_missing_is_noop :
    ∀ (f : List Album) (aid : Nat),
      (aid ∉ forestAlbumIds f → deleteAlbumF aid f = f) ∧
      aid ∉ forestAlbumIds (deleteAlbumF aid f) ∧
      ((forestIds f).Nodup → ∀ A, A ∈ subtreesF f → A.id = aid →
        ∀ x, x ∈ A.allIds → x ∉ forestIds (deleteAlbumF aid f)) := by
  intro f aid
  exact ⟨deleteAlbumF_noop aid f, deleteAlbumF_no_aid aid f, deleteAlbumF_cascade aid f⟩

/-- Witness for C5 on the demo forest: deleting the absent id 7 is the
identity, and deleting album 2 also removes its image 11. -/
theorem deleteAlbum_cascades_and_missing_is_noop_witness :
    Media.deleteAlbumF 7 Media.demoForest = Media.demoForest ∧
    11 ∉ Media.forestIds (Media.deleteAlbumF 2 Media.demoForest) := by
  constructor
  · exact (deleteAlbum_cascades_and_missing_is_noop demoForest 7).1
      (by simp [demoForest, forestAlbumIds, Album.deepAlbumIds])
  · exact (deleteAlbum_cascades_and_missing_is_noop demoForest 2).2.2
      (by simp [demoForest, forestIds, Album.allIds, imgIds])
      (Album.mk 2 "B" [⟨11, "j.jpg"⟩] [])
      (by simp [demoForest, subtreesF])
      rfl 11 (by simp [Album.allIds, imgIds])

/-! ## Import merge semantics (C6) -/

theorem splitNamed_eq (n : String) :
    ∀ (subs xs ys : List Album) (a : Album),
      splitNamed n subs = some (xs, a, ys) → subs = xs ++ a :: ys ∧ a.name = n := by
  intro subs
  induction subs with
  | nil => intro xs ys a h; simp [splitNamed] at h
  | cons b rest ih =>
    intro xs ys a h
    by_cases hb : b.name = n
    · simp only [splitNamed, if_pos hb, Option.some_inj, Prod.mk.injEq] at h
      obtain ⟨h1, h2, h3⟩ := h
      subst h1; subst h2; subst h3
      simpa using hb
    · simp only [splitNamed, if_neg hb] at h
      cases hr : splitNamed n rest with
      | none => rw [hr] at h; simp at h
      | some t =>
        obtain ⟨xs2, a2, ys2⟩ := t
        rw [hr] at h
        simp only [Option.some_inj, Prod.mk.injEq] at h
        obtain ⟨h1, h2, h3⟩ := h
        have hih := ih xs2 ys2 a2 hr
        subst h1; subst h2; subst h3
        simp [hih.1, hih.2]

theorem splitNamed_isSome (n : String) :
    ∀ subs : List Album, (∃ a, a ∈ subs ∧ a.name = n) →
      ∃ t, splitNamed n subs = some t := by
  intro subs
  induction subs with
  | nil => rintro ⟨a, ha, _⟩; cases ha
  | cons b rest ih =>
    rintro ⟨a, ha, hname⟩
    by_cases hb : b.name = n
    · exact ⟨([], b, rest), by simp [splitNamed, hb]⟩
    · have hex : ∃ a, a ∈ rest ∧ a.name = n := by
        rcases List.mem_cons.mp ha with h | h
        · subst h; exact absurd hname hb
        · exact ⟨a, h, hname⟩
      obtain ⟨t, ht⟩ := ih hex
      obtain ⟨xs, a', ys⟩ := t
      exact ⟨(b :: xs, a', ys), by simp [splitNamed, hb, ht]⟩

theorem countNamed_append (n : String) (l1 l2 : List Album) :
    countNamed n (l1 ++ l2) = countNamed n l1 + countNamed n l2 := by
  simp [countNamed, List.filter_append]

theorem countNamed_cons (n : String) (a : Album) (l : List Album) :
    countNamed n (a :: l) = (if a.name = n then 1 else 0) + countNamed n l := by
  by_cases h : a.name = n
  · simp [countNamed, List.filter_cons, h]
    omega
  · simp [countNamed, List.filter_cons, h]

/-- C6: importing a directory named `n` into a container that already has
a sub-album named `n` (case-sensitive match) merges into it instead of
duplicating: the number of sub-albums named `n` is unchanged. Concretely,
importing the same two-image directory "X" twice into an empty container
yields a single album "X" holding the four accumulated images. -/
theorem import_same_named_dir_merges :
    (∀ (im : List Image) (subs : List Album) (c : Nat) (n : String) (ch : List Entry),
      (∃ a, a ∈ subs ∧ a.name = n) →
      countNamed n (importList [Entry.dir n ch] im subs c).2.1 = countNamed n subs) ∧
    (importList [Entry.dir "X" [.file "a.jpg" true, .file "b.jpg" true]] []
       (importList [Entry.dir "X" [.file "a.jpg" true, .file "b.jpg" true]] [] [] 0).2.1
       (importList [Entry.dir "X" [.file "a.jpg" true, .file "b.jpg" true]] [] [] 0).2.2).2.1 =
      [Album.mk 0 "X" [⟨1, "a.jpg"⟩, ⟨2, "b.jpg"⟩, ⟨3, "a.jpg"⟩, ⟨4, "b.jpg"⟩] []] := by
  constructor
  · intro im subs c n ch hex
    obtain ⟨⟨xs, a, ys⟩, hsplit⟩ := splitNamed_isSome n subs hex
    obtain ⟨hsubs, hname⟩ := splitNamed_eq n subs xs ys a hsplit
    subst hsubs
    simp only [importList, hsplit]
    simp [countNamed_append, countNamed_cons, Album.name, hname]
  · simp [importList, splitNamed, Media.Album.images, Media.Album.subAlbums,
      Media.Album.id, Media.Album.name]

/-- Witness for C6 at a concrete container: a container already holding an
album named "X" still has exactly one such album after importing a
directory named "X". -/
theorem import_same_named_dir_merges_witness :
    countNamed "X" (importList [Entry.dir "X" []] [] [Album.mk 5 "X" [] []] 9).2.1 =
      countNamed "X" [Album.mk 5 "X" [] []] := by
  exact import_same_named_dir_merges.1 [] [Album.mk 5 "X" [] []] 9 "X" []
    ⟨Album.mk 5 "X" [] [], by simp, by simp [Album.name]⟩

/-! ## Uniqueness of ids under create/import operations (C4) -/

theorem importList_counter_mono :
    ∀ (es : List Entry) (im : List Image) (s : List Album) (c : Nat),
      c ≤ (importList es im s c).2.2 := by
  intro es im s c
  induction es, im, s, c using importList.induct with
  | case1 im s c => simp [importList]
  | case2 n es im s c ih =>
    simp only [importList, if_true]
    omega
  | case3 n isImg es im s c hni ih =>
    simp only [importList, if_neg hni]
    exact ih
  | case4 n ch es im s c xs b ys hsplit r ih1 ih2 =>
    simp only [importList, hsplit]
    exact le_trans ih1 ih2
  | case5 n ch es im s c hsplit r ih1 ih2 =>
    simp only [importList, hsplit]
    exact le_trans (by omega) (le_trans ih1 ih2)

theorem importList_prov :
    ∀ (es : List Entry) (im : List Image) (s : List Album) (c : Nat),
      ∀ x ∈ cIds (importList es im s c).1 (importList es im s c).2.1,
        x ∈ cIds im s ∨ (c ≤ x ∧ x < (importList es im s c).2.2) := by
  intro es im s c
  induction es, im, s, c using importList.induct with
  | case1 im s c =>
    simp only [importList]
    exact fun x hx => Or.inl hx
  | case2 n es im s c ih =>
    simp only [importList, if_true]
    intro x hx
    have hmono := importList_counter_mono es (im ++ [⟨c, n⟩]) s (c + 1)
    rcases ih x hx with h | h
    · simp only [cIds, imgIds, List.map_append, List.mem_append, List.map_cons,
        List.map_nil, List.mem_cons, List.not_mem_nil, or_false] at h
      simp only [cIds, imgIds, List.mem_append]
      rcases h with (h | h) | h
      · exact Or.inl (Or.inl h)
      · right; omega
      · exact Or.inl (Or.inr h)
    · right; omega
  | case3 n isImg es im s c hni ih =>
    simp only [importList, if_neg hni]
    exact ih
  | case4 n ch es im s c xs b ys hsplit r ih1 ih2 =>
    obtain ⟨hs, hname⟩ := splitNamed_eq n s xs ys b hsplit
    obtain ⟨bi, bn, bim, bsub⟩ := b
    subst hs
    have hre : r = importList ch (Album.mk bi bn bim bsub).images
        (Album.mk bi bn bim bsub).subAlbums c := rfl
    clear_value r
    simp only [Album.images, Album.subAlbums] at hre
    subst hre
    simp only [Album.images, Album.subAlbums, Album.id, Album.name] at ih1 ih2
    simp only [importList, hsplit, Album.images, Album.subAlbums, Album.id, Album.name]
    intro x hx
    have hmono1 := importList_counter_mono ch bim bsub c
    have hmono2 := importList_counter_mono es im
      (xs ++ Album.mk bi bn (importList ch bim bsub c).1
        (importList ch bim bsub c).2.1 :: ys)
      (importList ch bim bsub c).2.2
    rcases ih2 x hx with h | h
    · simp only [cIds, imgIds, List.mem_append, forestIds_append, forestIds,
        Album.allIds, Album.id, Album.name, Album.images, Album.subAlbums,
        List.cons_append, List.append_assoc, List.mem_cons,
        List.not_mem_nil, or_false] at h ⊢
      rcases h with h | h | h | h | h | h
      · tauto
      · tauto
      · tauto
      · rcases ih1 x (by simp only [cIds, imgIds, List.mem_append]; exact Or.inl h)
          with h2 | h2
        · simp only [cIds, imgIds, Album.images, Album.subAlbums,
            List.mem_append] at h2
          tauto
        · right; omega
      · rcases ih1 x (by simp only [cIds, imgIds, List.mem_append]; exact Or.inr h)
          with h2 | h2
        · simp only [cIds, imgIds, Album.images, Album.subAlbums,
            List.mem_append] at h2
          tauto
        · right; omega
      · tauto
    · right; omega
  | case5 n ch es im s c hsplit r ih1 ih2 =>
    have hre : r = importList ch [] [] (c + 1) := rfl
    clear_value r
    subst hre
    simp only [importList, hsplit]
    intro x hx
    have hmono1 := importList_counter_mono ch [] [] (c + 1)
    have hmono2 := importList_counter_mono es im
      (s ++ [Album.mk c n (importList ch [] [] (c + 1)).1
        (importList ch [] [] (c + 1)).2.1])
      (importList ch [] [] (c + 1)).2.2
    rcases ih2 x hx with h | h
    · simp only [cIds, imgIds, List.mem_append, forestIds_append, forestIds,
        Album.allIds, Album.id, Album.name, Album.images, Album.subAlbums,
        List.cons_append, List.append_assoc, List.mem_cons,
        List.not_mem_nil, or_false, List.append_nil] at h ⊢
      rcases h with h | h | h | h | h
      · tauto
      · tauto
      · right; omega
      · rcases ih1 x (by simp only [cIds, imgIds, List.mem_append]; exact Or.inl h)
          with h2 | h2
        · simp only [cIds, imgIds, List.map_nil, forestIds, List.mem_append,
            List.not_mem_nil, or_false] at h2
        · right; omega
      · rcases ih1 x (by simp only [cIds, imgIds, List.mem_append]; exact Or.inr h)
          with h2 | h2
        · simp only [cIds, imgIds, List.map_nil, forestIds, List.mem_append,
            List.not_mem_nil, or_false] at h2
        · right; omega
    · right; omega

theorem nodup_replace_chunk {X Y Z Y2 : List Nat} {c : Nat} (c2 : Nat)
    (hn : (X ++ (Y ++ Z)).Nodup) (hb : ∀ x, (x ∈ X ∨ x ∈ Y ∨ x ∈ Z) → x < c)
    (h2 : Y2.Nodup) (hp : ∀ y ∈ Y2, y ∈ Y ∨ (c ≤ y ∧ y < c2)) :
    (X ++ (Y2 ++ Z)).Nodup := by
  simp only [List.nodup_append, List.disjoint_left, List.mem_append, not_or] at hn ⊢
  obtain ⟨hX, ⟨hY, hZ, hYZ⟩, hXYZ⟩ := hn
  refine ⟨hX, ⟨h2, hZ, ?_⟩, ?_⟩
  · intro y hy hyZ
    rcases hp y hy with h | h
    · exact hYZ h hyZ
    · have := hb y (Or.inr (Or.inr hyZ))
      omega
  · intro x hx
    have hbx := hb x (Or.inl hx)
    have hx2 := hXYZ hx
    refine ⟨?_, hx2.2⟩
    intro hxy2
    rcases hp x hxy2 with h | h
    · exact hx2.1 h
    · omega

theorem nodup_append_fresh {L M : List Nat} {c : Nat}
    (hL : L.Nodup) (hb : ∀ x ∈ L, x < c) (hM : M.Nodup) (hge : ∀ y ∈ M, c ≤ y) :
    (L ++ M).Nodup := by
  rw [List.nodup_append]
  refine ⟨hL, hM, ?_⟩
  intro a haL haM
  have h1 := hb a haL
  have h2 := hge a haM
  omega

theorem importList_nodup :
    ∀ (es : List Entry) (im : List Image) (s : List Album) (c : Nat),
      (cIds im s).Nodup → (∀ x ∈ cIds im s, x < c) →
      (cIds (importList es im s c).1 (importList es im s c).2.1).Nodup ∧
      (∀ x ∈ cIds (importList es im s c).1 (importList es im s c).2.1,
        x < (importList es im s c).2.2) := by
  intro es im s c
  induction es, im, s, c using importList.induct with
  | case1 im s c =>
    intro hnd hbd
    simp only [importList]
    exact ⟨hnd, hbd⟩
  | case2 n es im s c ih =>
    intro hnd hbd
    simp only [importList, if_true]
    have e1 : cIds (im ++ [⟨c, n⟩]) s = imgIds im ++ c :: forestIds s := by
      simp [cIds, imgIds]
    apply ih
    · rw [e1, List.nodup_middle]
      refine List.nodup_cons.mpr ⟨?_, by simpa [cIds] using hnd⟩
      intro hc
      have := hbd c (by simpa [cIds] using hc)
      omega
    · intro x hx
      rw [e1] at hx
      simp only [List.mem_append, List.mem_cons] at hx
      rcases hx with hx | hx | hx
      · have := hbd x (by simp only [cIds, List.mem_append]; exact Or.inl hx)
        omega
      · omega
      · have := hbd x (by simp only [cIds, List.mem_append]; exact Or.inr hx)
        omega
  | case3 n isImg es im s c hni ih =>
    intro hnd hbd
    simp only [importList, if_neg hni]
    exact ih hnd hbd
  | case4 n ch es im s c xs b ys hsplit r ih1 ih2 =>
    obtain ⟨hs, hname⟩ := splitNamed_eq n s xs ys b hsplit
    obtain ⟨bi, bn, bim, bsub⟩ := b
    subst hs
    have hre : r = importList ch (Album.mk bi bn bim bsub).images
        (Album.mk bi bn bim bsub).subAlbums c := rfl
    clear_value r
    simp only [Album.images, Album.subAlbums] at hre
    subst hre
    simp only [Album.images, Album.subAlbums, Album.id, Album.name] at ih1 ih2
    intro hnd hbd
    simp only [importList, hsplit, Album.images, Album.subAlbums, Album.id, Album.name]
    have eold : cIds im (xs ++ Album.mk bi bn bim bsub :: ys) =
        (imgIds im ++ forestIds xs ++ [bi]) ++
          ((imgIds bim ++ forestIds bsub) ++ forestIds ys) := by
      simp [cIds, imgIds, forestIds_append, forestIds, Album.allIds, List.append_assoc]
    have emid : cIds im (xs ++ Album.mk bi bn (importList ch bim bsub c).1
        (importList ch bim bsub c).2.1 :: ys) =
        (imgIds im ++ forestIds xs ++ [bi]) ++
          (cIds (importList ch bim bsub c).1 (importList ch bim bsub c).2.1 ++
            forestIds ys) := by
      simp [cIds, imgIds, forestIds_append, forestIds, Album.allIds, List.append_assoc]
    have hbd2 : ∀ x, (x ∈ imgIds im ++ forestIds xs ++ [bi] ∨
        x ∈ imgIds bim ++ forestIds bsub ∨ x ∈ forestIds ys) → x < c := by
      intro x hx
      apply hbd
      rw [eold]
      simp only [List.mem_append] at hx ⊢
      tauto
    rw [eold] at hnd
    have hnY : (cIds bim bsub).Nodup := hnd.of_append_right.of_append_left
    have hbY : ∀ x ∈ cIds bim bsub, x < c := by
      intro x hx
      apply hbd2
      right; left
      simpa [cIds] using hx
    obtain ⟨hin_nd, hin_bd⟩ := ih1 hnY hbY
    have hprov := importList_prov ch bim bsub c
    have hmono1 := importList_counter_mono ch bim bsub c
    apply ih2
    · rw [emid]
      refine nodup_replace_chunk (importList ch bim bsub c).2.2 hnd hbd2 hin_nd ?_
      intro y hy
      rcases hprov y hy with h | h
      · left; simpa [cIds] using h
      · right; exact h
    · intro x hx
      rw [emid] at hx
      simp only [List.mem_append] at hx
      rcases hx with hx | hx | hx
      · have := hbd2 x (Or.inl (by simp only [List.mem_append]; tauto))
        omega
      · exact hin_bd x hx
      · have := hbd2 x (Or.inr (Or.inr hx))
        omega
  | case5 n ch es im s c hsplit r ih1 ih2 =>
    have hre : r = importList ch [] [] (c + 1) := rfl
    clear_value r
    subst hre
    intro hnd hbd
    simp only [importList, hsplit]
    have hnilnd : (cIds ([] : List Image) ([] : List Album)).Nodup := by
      simp [cIds, imgIds, forestIds]
    have hnilbd : ∀ x ∈ cIds ([] : List Image) ([] : List Album), x < c + 1 := by
      simp [cIds, imgIds, forestIds]
    obtain ⟨hin_nd, hin_bd⟩ := ih1 hnilnd hnilbd
    have hprov := importList_prov ch [] [] (c + 1)
    have hmono1 := importList_counter_mono ch [] [] (c + 1)
    have hfresh : ∀ y ∈ cIds (importList ch [] [] (c + 1)).1
        (importList ch [] [] (c + 1)).2.1, c + 1 ≤ y := by
      intro y hy
      rcases hprov y hy with h | h
      · simp [cIds, imgIds, forestIds] at h
      · exact h.1
    have emid : cIds im (s ++ [Album.mk c n (importList ch [] [] (c + 1)).1
        (importList ch [] [] (c + 1)).2.1]) =
        cIds im s ++ (c :: cIds (importList ch [] [] (c + 1)).1
          (importList ch [] [] (c + 1)).2.1) := by
      simp [cIds, imgIds, forestIds_append, forestIds, Album.allIds, List.append_assoc]
    apply ih2
    · rw [emid]
      refine nodup_append_fresh hnd hbd ?_ ?_
      · refine List.nodup_cons.mpr ⟨?_, hin_nd⟩
        intro hc
        have := hfresh c hc
        omega
      · intro y hy
        rcases List.mem_cons.mp hy with h | h
        · omega
        · have := hfresh y h
          omega
    · intro x hx
      rw [emid] at hx
      simp only [List.mem_append, List.mem_cons] at hx
      rcases hx with hx | hx | hx
      · have := hbd x hx
        omega
      · omega
      · exact hin_bd x hx

theorem modifyAlbumIn_inv
    (g : List Image → List Album → Nat → List Image × List Album × Nat)
    (hg1 : ∀ im s c, c ≤ (g im s c).2.2)
    (hg2 : ∀ im s c x, x ∈ cIds (g im s c).1 (g im s c).2.1 →
      x ∈ cIds im s ∨ (c ≤ x ∧ x < (g im s c).2.2))
    (hg3 : ∀ im s c, (cIds im s).Nodup → (∀ x ∈ cIds im s, x < c) →
      (cIds (g im s c).1 (g im s c).2.1).Nodup ∧
      (∀ x ∈ cIds (g im s c).1 (g im s c).2.1, x < (g im s c).2.2)) :
    ∀ (p : List Nat) (f : List Album) (c : Nat),
      c ≤ (modifyAlbumIn g p f c).2 ∧
      (∀ x ∈ forestIds (modifyAlbumIn g p f c).1,
        x ∈ forestIds f ∨ (c ≤ x ∧ x < (modifyAlbumIn g p f c).2)) ∧
      ((forestIds f).Nodup → (∀ x ∈ forestIds f, x < c) →
        (forestIds (modifyAlbumIn g p f c).1).Nodup ∧
        (∀ x ∈ forestIds (modifyAlbumIn g p f c).1, x < (modifyAlbumIn g p f c).2)) := by
  intro p f c
  induction p, f, c using modifyAlbumIn.induct g with
  | case1 f c =>
    simp only [modifyAlbumIn]
    exact ⟨le_refl c, fun x hx => Or.inl hx, fun hnd hbd => ⟨hnd, hbd⟩⟩
  | case2 head tail c =>
    simp only [modifyAlbumIn]
    exact ⟨le_refl c, fun x hx => Or.inl hx, fun hnd hbd => ⟨hnd, hbd⟩⟩
  | case3 i n im s sib c =>
    simp only [modifyAlbumIn, eq_self_iff_true, if_true]
    have eold : forestIds (Album.mk i n im s :: sib) =
        [i] ++ ((imgIds im ++ forestIds s) ++ forestIds sib) := by
      simp [forestIds, Album.allIds, List.append_assoc]
    have emid : forestIds (Album.mk i n (g im s c).1 (g im s c).2.1 :: sib) =
        [i] ++ (cIds (g im s c).1 (g im s c).2.1 ++ forestIds sib) := by
      simp [forestIds, cIds, Album.allIds, List.append_assoc]
    refine ⟨hg1 im s c, ?_, ?_⟩
    · intro x hx
      rw [emid] at hx
      rw [eold]
      simp only [List.mem_append, List.mem_singleton] at hx ⊢
      rcases hx with hx | hx | hx
      · tauto
      · rcases hg2 im s c x hx with h | h
        · simp only [cIds, List.mem_append] at h
          tauto
        · tauto
      · tauto
    · intro hnd hbd
      rw [eold] at hnd
      have hbd2 : ∀ x, (x ∈ [i] ∨ x ∈ imgIds im ++ forestIds s ∨
          x ∈ forestIds sib) → x < c := by
        intro x hx
        apply hbd
        rw [eold]
        simp only [List.mem_append] at hx ⊢
        tauto
      have hnY : (cIds im s).Nodup := hnd.of_append_right.of_append_left
      have hbY : ∀ x ∈ cIds im s, x < c := by
        intro x hx
        exact hbd2 x (Or.inr (Or.inl (by simpa [cIds] using hx)))
      obtain ⟨hgn, hgb⟩ := hg3 im s c hnY hbY
      constructor
      · rw [emid]
        refine nodup_replace_chunk (g im s c).2.2 hnd hbd2 hgn ?_
        intro y hy
        rcases hg2 im s c y hy with h | h
        · left; simpa [cIds] using h
        · right; exact h
      · intro x hx
        rw [emid] at hx
        simp only [List.mem_append, List.mem_singleton] at hx
        have hmono := hg1 im s c
        rcases hx with hx | hx | hx
        · have := hbd2 x (Or.inl (by simp [hx]))
          omega
        · exact hgb x hx
        · have := hbd2 x (Or.inr (Or.inr hx))
          omega
  | case4 pid i n im s sib c hne ih =>
    simp only [modifyAlbumIn, if_neg hne]
    obtain ⟨ih1, ih2, ih3⟩ := ih
    have eold : forestIds (Album.mk i n im s :: sib) =
        (i :: (imgIds im ++ forestIds s)) ++ (forestIds sib ++ []) := by
      simp [forestIds, Album.allIds, List.append_assoc]
    have emid : forestIds (Album.mk i n im s :: (modifyAlbumIn g [pid] sib c).1) =
        (i :: (imgIds im ++ forestIds s)) ++
          (forestIds (modifyAlbumIn g [pid] sib c).1 ++ []) := by
      simp [forestIds, Album.allIds, List.append_assoc]
    refine ⟨ih1, ?_, ?_⟩
    · intro x hx
      rw [emid, List.append_nil] at hx
      rw [eold, List.append_nil]
      rcases List.mem_append.mp hx with hx | hx
      · exact Or.inl (List.mem_append.mpr (Or.inl hx))
      · rcases ih2 x hx with h | h
        · exact Or.inl (List.mem_append.mpr (Or.inr h))
        · right; exact h
    · intro hnd hbd
      rw [eold] at hnd
      have hbd2 : ∀ x, (x ∈ i :: (imgIds im ++ forestIds s) ∨
          x ∈ forestIds sib ∨ x ∈ ([] : List Nat)) → x < c := by
        intro x hx
        apply hbd
        rw [eold]
        simp only [List.mem_append, List.mem_cons, List.not_mem_nil, or_false] at hx ⊢
        tauto
      have hnY : (forestIds sib).Nodup := hnd.of_append_right.of_append_left
      have hbY : ∀ x ∈ forestIds sib, x < c := fun x hx => hbd2 x (Or.inr (Or.inl hx))
      obtain ⟨hgn, hgb⟩ := ih3 hnY hbY
      constructor
      · rw [emid]
        refine nodup_replace_chunk (modifyAlbumIn g [pid] sib c).2 hnd hbd2 hgn ?_
        intro y hy
        rcases ih2 y hy with h | h
        · exact Or.inl h
        · exact Or.inr h
      · intro x hx
        rw [emid, List.append_nil] at hx
        rcases List.mem_append.mp hx with hx | hx
        · have := hbd2 x (Or.inl hx)
          omega
        · exact hgb x hx
  | case5 q rest i n im s sib c ih =>
    simp only [modifyAlbumIn, eq_self_iff_true, if_true]
    obtain ⟨ih1, ih2, ih3⟩ := ih
    have eold : forestIds (Album.mk i n im s :: sib) =
        (i :: imgIds im) ++ (forestIds s ++ forestIds sib) := by
      simp [forestIds, Album.allIds, List.append_assoc]
    have emid : forestIds (Album.mk i n im (modifyAlbumIn g (q :: rest) s c).1 :: sib) =
        (i :: imgIds im) ++
          (forestIds (modifyAlbumIn g (q :: rest) s c).1 ++ forestIds sib) := by
      simp [forestIds, Album.allIds, List.append_assoc]
    refine ⟨ih1, ?_, ?_⟩
    · intro x hx
      rw [emid] at hx
      rw [eold]
      rcases List.mem_append.mp hx with hx | hx
      · exact Or.inl (List.mem_append.mpr (Or.inl hx))
      · rcases List.mem_append.mp hx with hx | hx
        · rcases ih2 x hx with h | h
          · exact Or.inl (List.mem_append.mpr (Or.inr (List.mem_append.mpr (Or.inl h))))
          · right; exact h
        · exact Or.inl (List.mem_append.mpr (Or.inr (List.mem_append.mpr (Or.inr hx))))
    · intro hnd hbd
      rw [eold] at hnd
      have hbd2 : ∀ x, (x ∈ i :: imgIds im ∨ x ∈ forestIds s ∨
          x ∈ forestIds sib) → x < c := by
        intro x hx
        apply hbd
        rw [eold]
        simp only [List.mem_append, List.mem_cons] at hx ⊢
        tauto
      have hnY : (forestIds s).Nodup := hnd.of_append_right.of_append_left
      have hbY : ∀ x ∈ forestIds s, x < c := fun x hx => hbd2 x (Or.inr (Or.inl hx))
      obtain ⟨hgn, hgb⟩ := ih3 hnY hbY
      constructor
      · rw [emid]
        refine nodup_replace_chunk (modifyAlbumIn g (q :: rest) s c).2 hnd hbd2 hgn ?_
        intro y hy
        rcases ih2 y hy with h | h
        · exact Or.inl h
        · exact Or.inr h
      · intro x hx
        rw [emid] at hx
        rcases List.mem_append.mp hx with hx | hx
        · have := hbd2 x (Or.inl hx)
          omega
        · rcases List.mem_append.mp hx with hx | hx
          · exact hgb x hx
          · have := hbd2 x (Or.inr (Or.inr hx))
            omega
  | case6 pid q rest i n im s sib c hne ih =>
    simp only [modifyAlbumIn, if_neg hne]
    obtain ⟨ih1, ih2, ih3⟩ := ih
    have eold : forestIds (Album.mk i n im s :: sib) =
        (i :: (imgIds im ++ forestIds s)) ++ (forestIds sib ++ []) := by
      simp [forestIds, Album.allIds, List.append_assoc]
    have emid : forestIds
        (Album.mk i n im s :: (modifyAlbumIn g (pid :: q :: rest) sib c).1) =
        (i :: (imgIds im ++ forestIds s)) ++
          (forestIds (modifyAlbumIn g (pid :: q :: rest) sib c).1 ++ []) := by
      simp [forestIds, Album.allIds, List.append_assoc]
    refine ⟨ih1, ?_, ?_⟩
    · intro x hx
      rw [emid, List.append_nil] at hx
      rw [eold, List.append_nil]
      rcases List.mem_append.mp hx with hx | hx
      · exact Or.inl (List.mem_append.mpr (Or.inl hx))
      · rcases ih2 x hx with h | h
        · exact Or.inl (List.mem_append.mpr (Or.inr h))
        · right; exact h
    · intro hnd hbd
      rw [eold] at hnd
      have hbd2 : ∀ x, (x ∈ i :: (imgIds im ++ forestIds s) ∨
          x ∈ forestIds sib ∨ x ∈ ([] : List Nat)) → x < c := by
        intro x hx
        apply hbd
        rw [eold]
        simp only [List.mem_append, List.mem_cons, List.not_mem_nil, or_false] at hx ⊢
        tauto
      have hnY : (forestIds sib).Nodup := hnd.of_append_right.of_append_left
      have hbY : ∀ x ∈ forestIds sib, x < c := fun x hx => hbd2 x (Or.inr (Or.inl hx))
      obtain ⟨hgn, hgb⟩ := ih3 hnY hbY
      constructor
      · rw [emid]
        refine nodup_replace_chunk (modifyAlbumIn g (pid :: q :: rest) sib c).2
          hnd hbd2 hgn ?_
        intro y hy
        rcases ih2 y hy with h | h
        · exact Or.inl h
        · exact Or.inr h
      · intro x hx
        rw [emid, List.append_nil] at hx
        rcases List.mem_append.mp hx with hx | hx
        · have := hbd2 x (Or.inl hx)
          omega
        · exact hgb x hx

theorem createAlbum_inv :
    ∀ (f : List Album) (p : List Nat) (nm : String) (c : Nat),
      (forestIds f).Nodup → (∀ x ∈ forestIds f, x < c) →
      (forestIds (createAlbum f p nm c).1).Nodup ∧
      (∀ x ∈ forestIds (createAlbum f p nm c).1, x < (createAlbum f p nm c).2) := by
  intro f p nm c hnd hbd
  simp only [createAlbum]
  by_cases hb : blankText nm
  · simp only [hb, if_true]
    exact ⟨hnd, hbd⟩
  · simp only [hb, Bool.false_eq_true, if_false]
    cases p with
    | nil =>
      show (forestIds (f ++ [Album.mk c nm [] []])).Nodup ∧
        ∀ x ∈ forestIds (f ++ [Album.mk c nm [] []]), x < c + 1
      have e : forestIds (f ++ [Album.mk c nm [] []]) = forestIds f ++ [c] := by
        simp [forestIds_append, forestIds, Album.allIds, imgIds]
      constructor
      · rw [e]
        exact nodup_append_fresh hnd hbd (List.nodup_singleton c) (by simp)
      · intro x hx
        rw [e] at hx
        rcases List.mem_append.mp hx with hx | hx
        · have := hbd x hx
          omega
        · simp only [List.mem_singleton] at hx
          omega
    | cons q qs =>
      have h := modifyAlbumIn_inv
        (fun im s cc => (im, s ++ [Album.mk cc nm [] []], cc + 1))
        (by intro im s cc; exact Nat.le_succ cc)
        (by
          intro im s cc x hx
          have e : cIds im (s ++ [Album.mk cc nm [] []]) = cIds im s ++ [cc] := by
            simp [cIds, forestIds_append, forestIds, Album.allIds, imgIds,
              List.append_assoc]
          simp only at hx
          rw [e] at hx
          rcases List.mem_append.mp hx with hx | hx
          · left; exact hx
          · simp only [List.mem_singleton] at hx
            right
            show cc ≤ x ∧ x < cc + 1
            omega)
        (by
          intro im s cc hn hbn
          have e : cIds im (s ++ [Album.mk cc nm [] []]) = cIds im s ++ [cc] := by
            simp [cIds, forestIds_append, forestIds, Album.allIds, imgIds,
              List.append_assoc]
          constructor
          · simp only
            rw [e]
            exact nodup_append_fresh hn hbn (List.nodup_singleton cc) (by simp)
          · intro x hx
            simp only at hx ⊢
            rw [e] at hx
            rcases List.mem_append.mp hx with hx | hx
            · have := hbn x hx
              omega
            · simp only [List.mem_singleton] at hx
              omega)
        (q :: qs) f c
      exact h.2.2 hnd hbd

theorem importInto_inv :
    ∀ (f : List Album) (p : List Nat) (es : List Entry) (c : Nat),
      (forestIds f).Nodup → (∀ x ∈ forestIds f, x < c) →
      (forestIds (importInto f p es c).1).Nodup ∧
      (∀ x ∈ forestIds (importInto f p es c).1, x < (importInto f p es c).2) := by
  intro f p es c hnd hbd
  cases p with
  | nil =>
    simp only [importInto]
    have hn0 : (cIds ([] : List Image) f).Nodup := by
      simpa [cIds, imgIds] using hnd
    have hb0 : ∀ x ∈ cIds ([] : List Image) f, x < c := by
      intro x hx
      exact hbd x (by simpa [cIds, imgIds] using hx)
    obtain ⟨hrn, hrb⟩ := importList_nodup es [] f c hn0 hb0
    constructor
    · exact hrn.of_append_right
    · intro x hx
      exact hrb x (by simp only [cIds, List.mem_append]; exact Or.inr hx)
  | cons q qs =>
    simp only [importInto]
    have h := modifyAlbumIn_inv (importList es)
      (fun im s cc => importList_counter_mono es im s cc)
      (fun im s cc x hx => importList_prov es im s cc x hx)
      (fun im s cc hn hbn => importList_nodup es im s cc hn hbn)
      (q :: qs) f c
    exact h.2.2 hnd hbd

theorem applyOp_inv :
    ∀ (st : List Album × Nat) (op : Op),
      (forestIds st.1).Nodup → (∀ x ∈ forestIds st.1, x < st.2) →
      (forestIds (applyOp st op).1).Nodup ∧
      (∀ x ∈ forestIds (applyOp st op).1, x < (applyOp st op).2) := by
  intro st op hnd hbd
  cases op with
  | create p nm => exact createAlbum_inv st.1 p nm st.2 hnd hbd
  | doImport p es => exact importInto_inv st.1 p es st.2 hnd hbd

theorem applyOps_inv :
    ∀ (ops : List Op) (st : List Album × Nat),
      (forestIds st.1).Nodup → (∀ x ∈ forestIds st.1, x < st.2) →
      (forestIds (applyOps st ops).1).Nodup ∧
      (∀ x ∈ forestIds (applyOps st ops).1, x < (applyOps st ops).2) := by
  intro ops
  induction ops with
  | nil => intro st hnd hbd; simpa [applyOps] using ⟨hnd, hbd⟩
  | cons op ops ih =>
    intro st hnd hbd
    rw [applyOps]
    obtain ⟨h1, h2⟩ := applyOp_inv st op hnd hbd
    exact ih (applyOp st op) h1 h2

/-- C4: starting from any forest whose ids are pairwise distinct and below
the fresh-id counter (in particular the empty forest with counter 0),
every sequence of createAlbum/import operations leaves the forest with all
ids — album and image ids alike — pairwise distinct. -/
theorem create_import_ops_preserve_unique_ids :
    ∀ (ops : List Op) (f : List Album) (c : Nat),
      (forestIds f).Nodup → (∀ x ∈ forestIds f, x < c) →
      (forestIds (applyOps (f, c) ops).1).Nodup := by
  intro ops f c hnd hbd
  exact (applyOps_inv ops (f, c) hnd hbd).1

/-- Witness for C4 at a concrete input: creating a root album and twice
importing a directory with an image file, starting from the empty forest,
yields a forest with no duplicate id. -/
theorem create_import_ops_preserve_unique_ids_witness :
    (forestIds (applyOps ([], 0)
      [Op.create [] "Trip",
       Op.doImport [] [Entry.dir "X" [Entry.file "a.jpg" true]],
       Op.doImport [] [Entry.dir "X" [Entry.file "b.jpg" true]]]).1).Nodup := by
  exact create_import_ops_preserve_unique_ids
    [Op.create [] "Trip",
     Op.doImport [] [Entry.dir "X" [Entry.file "a.jpg" true]],
     Op.doImport [] [Entry.dir "X" [Entry.file "b.jpg" true]]]
    [] 0 (by simp [forestIds]) (by simp [forestIds])

/-- C7: after `deleteAlbum` of id `bId`, resolving any path ending in
`bId` under the truncation policy yields exactly the state of the path
with `bId` cut off — in particular `[aId, bId]` resolves to the state of
`[aId]` — and resolution is total (never an error). -/
theorem stale_path_resolves_to_truncation :
    ∀ (f : List Album) (aId bId : Nat) (p : List Nat),
      resolveTrunc (deleteAlbumF bId f) [aId, bId] = resolveTrunc (deleteAlbumF bId f) [aId] ∧
      resolveTrunc (deleteAlbumF bId f) (p ++ [bId]) = resolveTrunc (deleteAlbumF bId f) p := by
  intro f aId bId p
  have h := deleteAlbumF_no_aid bId f
  constructor
  · have h2 := resolveTrunc_append_missing bId [aId] (deleteAlbumF bId f) h
    simpa using h2
  · exact resolveTrunc_append_missing bId p (deleteAlbumF bId f) h

end Media
